import Mathlib

/-!
Verification of the Meow streaming-response engine and conversation memory.

This file gives a shallow embedding of the two core modules of the
repository:

* `src/content/streamManager.js` — the streaming session state machine
  (SSE frame parsing, chunk accumulation, finalization, truncation
  heuristic and automatic continuation), and
* the conversation memory engine (`MeowConversationMemory`) — bounded
  history, context window, payload building and follow-up detection.

Text is modelled as `List Char` (`Chars`).  JavaScript `trim()` is
modelled over the ASCII whitespace class; JS machine specifics
(timestamps, the RAF batching, the `AbortController`) that no theorem
depends on are either passed as explicit parameters or noted in
comments.  Asynchronous callbacks (fetch resolution, stream reads,
timer firings) are modelled as environment events acting on an explicit
session state, with each event's handler translated from the source;
the environment may fire events liberally (a superset of the real
schedules), so invariants proved over all event sequences hold in
particular for the real ones.
-/

namespace Meow

/-- Character-list representation of JS strings. -/
abbrev Chars := List Char

/-- Characters that can only be written awkwardly inside literals. -/
def lbraceChar : Char := Char.ofNat 123

def rbraceChar : Char := Char.ofNat 125

def btickChar : Char := Char.ofNat 96

def dquoteChar : Char := Char.ofNat 34

/-- ASCII whitespace, as stripped by JS `String.prototype.trim`. -/
def isWsChar (c : Char) : Bool :=
  c = ' ' || c = '\t' || c = '\n' || c = '\r'

/-- JS `String.prototype.trim`: strip leading and trailing whitespace. -/
def trimChars (l : Chars) : Chars :=
  ((l.dropWhile isWsChar).reverse.dropWhile isWsChar).reverse

/-- JS `Array.prototype.slice(-n)` / history truncation: the last `n`
elements of a list (all of them when it is shorter). -/
def takeLast (n : Nat) (l : List α) : List α :=
  l.drop (l.length - n)

/-- JS `String.prototype.toLowerCase` (over the ASCII range used by the
follow-up indicator vocabulary). -/
def toLowerChars (l : Chars) : Chars :=
  l.map Char.toLower

/-- Substring test, JS `String.prototype.includes`. -/
def hasSubstring (needle : Chars) : Chars → Bool
  | [] => needle.isEmpty
  | c :: t => needle.isPrefixOf (c :: t) || hasSubstring needle t

/-- Number of maximal whitespace runs in a string; the boolean records
whether the scan is currently inside a run. -/
def wsRunsAux : Chars → Bool → Nat
  | [], _ => 0
  | c :: rest, inWs =>
    if isWsChar c then (if inWs then 0 else 1) + wsRunsAux rest true
    else wsRunsAux rest false

/-- Field count of JS `str.split(/\s+/)`: one more than the number of
maximal whitespace runs (leading/trailing runs produce empty fields,
exactly as in JS). -/
def splitWsFieldCount (l : Chars) : Nat :=
  wsRunsAux l false + 1

/-! ### Conversation memory engine (`MeowConversationMemory`) -/

/-- One history entry: `{role, content, timestamp}` as pushed by
`addMessage`.  `Date.now()` is passed in as an explicit `timestamp`. -/
structure MemEntry where
  role : Chars
  content : Chars
  timestamp : Nat
deriving DecidableEq

/-- Page context snapshot (`_pageContext`). -/
structure PageCtx where
  title : Chars
  url : Chars
  summary : Chars
  mode : Chars
deriving DecidableEq

/-- Module state of `MeowConversationMemory`: `_history`,
`_pageContext`, `_turnCount`. -/
structure MemState where
  history : List MemEntry
  pageContext : Option PageCtx
  turnCount : Nat
deriving DecidableEq

def MAX_HISTORY_SIZE : Nat := 40

def CONTEXT_WINDOW_SIZE : Nat := 12

/-- `addMessage(role, content)`: reject empty/whitespace-only content
(`!content || !content.trim()` — for JS strings both reduce to the
trimmed content being empty), push the trimmed entry, bump the turn
counter, and `splice` down to the last `MAX_HISTORY_SIZE` entries. -/
def addMessage (role content : Chars) (ts : Nat) (st : MemState) : MemState :=
  if trimChars content = [] then st
  else
    let h := st.history ++ [⟨role, trimChars content, ts⟩]
    let h2 := if MAX_HISTORY_SIZE < h.length then h.drop (h.length - MAX_HISTORY_SIZE) else h
    { st with history := h2, turnCount := st.turnCount + 1 }

/-- A `{role, content}` message as sent to the backend. -/
structure ChatMsg where
  role : Chars
  content : Chars
deriving DecidableEq

/-- `getRecentMessages()`: the last `CONTEXT_WINDOW_SIZE` history
entries, stripped down to role and content. -/
def getRecentMessages (st : MemState) : List ChatMsg :=
  (takeLast CONTEXT_WINDOW_SIZE st.history).map (fun m => ⟨m.role, m.content⟩)

/-- Outbound API payload `{systemPrompt, messages, mode}`. -/
structure Payload where
  systemPrompt : Chars
  messages : List ChatMsg
  mode : Chars
deriving DecidableEq

/-- `_buildPageEnrichedMessage`: template literals embedding the page
context (first message) or a short title back-reference (later page
queries). -/
def buildPageEnrichedMessage (userMessage : Chars) (isFirst : Bool)
    (pc : Option PageCtx) : Chars :=
  match pc with
  | none => userMessage
  | some ctx =>
    if isFirst then
      "[Page Context]\nTitle: ".data ++ ctx.title ++ "\nURL: ".data ++ ctx.url
        ++ "\nType: ".data ++ ctx.mode ++ "\n\nPage Content:\n".data ++ ctx.summary
        ++ "\n\n---\n".data ++ userMessage
    else
      "[Referring to: ".data ++ ctx.title ++ "]\n".data ++ userMessage

/-- `buildPayload(userMessage, mode)`.  The external collaborators
`MeowPersonality.getSystemPrompt` and `MeowPageExtractor.isPageQuery`
live in other modules and are passed as function parameters. -/
def buildPayload (getSystemPrompt : Chars → Chars) (isPageQuery : Chars → Bool)
    (userMessage mode : Chars) (st : MemState) : Payload :=
  let systemPrompt := getSystemPrompt mode
  let messages := (getRecentMessages st).map (fun m => (⟨m.role, m.content⟩ : ChatMsg))
  let wantsPage := isPageQuery userMessage
  let isFirstMessage := decide (st.history.length = 0)
  let enrichedMessage :=
    if st.pageContext.isSome && (isFirstMessage || wantsPage) then
      buildPageEnrichedMessage userMessage isFirstMessage st.pageContext
    else userMessage
  ⟨systemPrompt, messages ++ [⟨"user".data, enrichedMessage⟩], mode⟩

/-- The fixed continuation instruction sent by
`buildContinuationPayload`. -/
def continuationInstruction : Chars :=
  "Continue naturally from where you stopped. Do not repeat anything already said.".data

/-- `buildContinuationPayload()`: core prompt (passed in, from
`MeowPersonality.getCorePrompt`), last 4 context-window messages, and
the fixed continuation instruction. -/
def buildContinuationPayload (getCorePrompt : Chars) (st : MemState) : Payload :=
  let recent := takeLast 4 (getRecentMessages st)
  ⟨getCorePrompt, recent ++ [⟨"user".data, continuationInstruction⟩],
    match st.pageContext with
    | some pc => pc.mode
    | none => "General Analysis".data⟩

/-- The fixed lexical follow-up marker vocabulary of `isFollowUp`. -/
def followUpIndicators : List Chars :=
  (["what about", "how about", "and ", "also", "but ",
    "why", "can you", "what if", "is that", "so ",
    "then", "ok ", "okay", "got it", "makes sense",
    "interesting", "wait", "hold on", "actually",
    "one more", "another", "more about", "elaborate",
    "explain more", "go deeper", "what do you mean",
    "could you", "can you clarify", "tell me more"] : List String).map String.data

/-- Whether the lowercased text matches the follow-up marker set
(`indicator => lower.startsWith(indicator) || lower.includes(indicator)`). -/
def markersMatch (userMessage : Chars) : Bool :=
  let lower := toLowerChars userMessage
  followUpIndicators.any (fun ind => ind.isPrefixOf lower || hasSubstring ind lower)

/-- `isFollowUp(userMessage)`: reads `_history` only; the returned state
is the (unchanged) module state, making the absence of writes explicit. -/
def isFollowUp (userMessage : Chars) (st : MemState) : Bool × MemState :=
  if st.history.length < 2 then (false, st)
  else
    let res :=
      if splitWsFieldCount userMessage < 8 && decide (2 ≤ st.history.length) then true
      else markersMatch userMessage
    (res, st)

/-- Fresh module state (`_history = []`, no page context, zero turns). -/
def initMemState : MemState := ⟨[], none, 0⟩

/-- Run a sequence of `addMessage` calls (role, content, timestamp)
against the fresh state. -/
def runMem (ops : List (Chars × Chars × Nat)) : MemState :=
  ops.foldl (fun st op => addMessage op.1 op.2.1 op.2.2 st) initMemState

/-- The entries a sequence of `addMessage` calls accepts (non-blank
content, trimmed), in call order. -/
def acceptedEntries (ops : List (Chars × Chars × Nat)) : List MemEntry :=
  ops.filterMap (fun op =>
    if trimChars op.2.1 = [] then none
    else some ⟨op.1, trimChars op.2.1, op.2.2⟩)

/-! ### Stream manager (`MeowStreamManager`) -/

/-- Session states (`STATE`).  `finalizing` and `error` are declared in
the source but never assigned by `_setState`. -/
inductive SState where
  | idle
  | connecting
  | streaming
  | finalizing
  | error
deriving DecidableEq

/-- Per-message state created by `_createMessageState` (the wall-clock
fields `lastChunkTime`/`startTime` and the generated id are omitted:
no claim mentions them). -/
structure Msg where
  role : Chars
  content : Chars
  isStreaming : Bool
  streamBuffer : Chars
  finalized : Bool
  error : Bool
  chunkCount : Nat
deriving DecidableEq

/-- Observable callback log: `_onChunk(msgId, content)`,
`_onFinalize(msgId, content, wasError)`, plus an internal marker `cont`
recording that `_requestContinuation` was invoked (not a UI callback). -/
inductive Ev where
  | chunk (content : Chars)
  | fin (content : Chars) (wasError : Bool)
  | cont
deriving DecidableEq

/-- Module state of `MeowStreamManager` for the current turn: `_state`,
the current message (`_messages` keyed by `_currentMsgId` in the
source), `_continuationCount`, the SSE read buffer of the open stream,
and the log of emitted callbacks. -/
structure SM where
  st : SState
  msg : Option Msg
  contCount : Nat
  sseBuf : Chars
  events : List Ev
deriving DecidableEq

def MAX_CONTINUATION_RETRIES : Nat := 1

def rateLimitedMsg : Chars := "Rate limited. Please wait a moment.".data

def modelLoadingMsg : Chars := "AI model loading. Try again in 20s.".data

def serverErrorMsg : Chars := "Server error. Try again later.".data

def backendErrorMsg : Chars := "Backend error.".data

def connectTimeoutMsg : Chars := "Connection timed out. Please try again.".data

def offlineMsg : Chars := "You appear to be offline.".data

def connectionErrorMsg : Chars := "Connection error. Try again.".data

def freshMsg : Msg := ⟨"ai".data, [], true, [], false, false, 0⟩

/-- First regex of `_isIncomplete`: `[.!?\n\]})` ++ backtick ++ `"]`,
tested against the last character. -/
def isTerminalLastChar (c : Char) : Bool :=
  c = '.' || c = '!' || c = '?' || c = '\n' || c = ']' || c = rbraceChar
    || c = ')' || c = btickChar || c = dquoteChar

/-- Second regex of `_isIncomplete`: `[.!?:;)\]}` ++ backtick ++ `"]$`,
tested against the end of the trimmed last line. -/
def isFragTerminalChar (c : Char) : Bool :=
  c = '.' || c = '!' || c = '?' || c = ':' || c = ';' || c = ')' || c = ']'
    || c = rbraceChar || c = btickChar || c = dquoteChar

/-- `text.split('\n').pop()`: the text after the last newline (the whole
text when there is none). -/
def lastFragment (l : Chars) : Chars :=
  (l.reverse.takeWhile (fun c => !(c = '\n'))).reverse

/-- `_isIncomplete(text)`: heuristic truncation detector. -/
def isIncomplete (text : Chars) : Bool :=
  if text.length < 20 then false
  else
    match text.getLast? with
    | none => false
    | some c =>
      if isTerminalLastChar c then false
      else
        let lastLine := trimChars (lastFragment text)
        if decide (5 < lastLine.length)
            && !(match lastLine.getLast? with
                 | some d => isFragTerminalChar d
                 | none => false) then true
        else false

/-- `_appendChunk(msgId, text)`: append-only accumulation plus the chunk
callback with the full content so far. -/
def appendChunk (text : Chars) (s : SM) : SM :=
  match s.msg with
  | none => s
  | some m =>
    if m.finalized then s
    else
      let m2 := { m with streamBuffer := m.streamBuffer ++ text,
                         content := m.content ++ text,
                         chunkCount := m.chunkCount + 1 }
      { s with msg := some m2, events := s.events ++ [Ev.chunk m2.content] }

/-- `_finalizeMessage(msgId, wasError)`: trim, mark finalized, return to
`IDLE`; on a non-error, non-empty, incomplete-looking result with the
continuation budget left, un-finalize and enter the synchronous prefix
of `_requestContinuation` (counter bump, `CONNECTING`) instead of
emitting the terminal callback. -/
def finalizeMessage (wasError : Bool) (s : SM) : SM :=
  match s.msg with
  | none => s
  | some m =>
    if m.finalized then s
    else
      let c := trimChars m.content
      let m1 := { m with content := c, streamBuffer := [], isStreaming := false,
                         finalized := true, error := wasError }
      if !wasError && !c.isEmpty && isIncomplete c
          && decide (s.contCount < MAX_CONTINUATION_RETRIES) then
        { s with msg := some { m1 with finalized := false, isStreaming := true },
                 contCount := s.contCount + 1, st := SState.connecting,
                 events := s.events ++ [Ev.cont] }
      else
        { s with msg := some m1, st := SState.idle,
                 events := s.events ++ [Ev.fin c wasError] }

/-- Wire frame payload after `JSON.parse`: at most one of
`parsed.error` / `parsed.text` is present in the frames the backend
emits. -/
structure Frame where
  errorVal : Option Chars
  textVal : Option Chars
deriving DecidableEq

def unescapeChar (c : Char) : Char :=
  if c = 'n' then '\n' else if c = 't' then '\t' else if c = 'r' then '\r' else c

/-- Parse a JSON string literal body up to its closing quote, handling
backslash escapes; returns the decoded value and the remaining input
(an unterminated literal — including a trailing lone backslash — fails,
as `JSON.parse` would). -/
def readStringLit : Chars → Option (Chars × Chars)
  | [] => none
  | [c] => if c = dquoteChar then some ([], []) else none
  | c :: e :: rest2 =>
    if c = dquoteChar then some ([], e :: rest2)
    else if c = '\\' then
      match readStringLit rest2 with
      | some (s, r) => some (unescapeChar e :: s, r)
      | none => none
    else
      match readStringLit (e :: rest2) with
      | some (s, r) => some (c :: s, r)
      | none => none

/-- `JSON.parse` modelled for the single-key object frames the backend
emits (`"text"` deltas and `"error"` frames); anything else fails,
which the caller treats as a skippable non-JSON line. -/
def parseFrame (data : Chars) : Option Frame :=
  match data with
  | c1 :: c2 :: rest =>
    if c1 = lbraceChar && c2 = dquoteChar then
      match readStringLit rest with
      | some (key, ':' :: rest2) =>
        match rest2.dropWhile (fun c => c = ' ') with
        | q :: rest4 =>
          if q = dquoteChar then
            match readStringLit rest4 with
            | some (val, [last]) =>
              if last = rbraceChar then
                if key = "text".data then some ⟨none, some val⟩
                else if key = "error".data then some ⟨some val, none⟩
                else none
              else none
            | _ => none
          else none
        | [] => none
      | _ => none
    else none
  | _ => none

/-- JS truthiness of an optional string field: present and non-empty. -/
def truthyOpt (o : Option Chars) : Bool :=
  match o with
  | some s => !s.isEmpty
  | none => false

/-- Mutation performed by the `parsed.error` branch of
`_processSSELines` before it finalizes. -/
def setErrorContent (e : Chars) (s : SM) : SM :=
  match s.msg with
  | none => s
  | some m =>
    { s with msg := some { m with error := true,
                                  content := if m.content.isEmpty then e else m.content } }

/-- JS `str.split('\n')`. -/
def splitNL : Chars → List Chars
  | [] => [[]]
  | c :: rest =>
    if c = '\n' then [] :: splitNL rest
    else
      match splitNL rest with
      | [] => [[c]]
      | h :: t => (c :: h) :: t

/-- Line loop of `_processSSELines`: `data: `-prefixed lines are
trimmed, checked against the `[DONE]` sentinel, JSON-parsed (parse
failures are skipped), and dispatched; `[DONE]` and error frames
finalize and return early. -/
def procLines (s : SM) : List Chars → SM
  | [] => s
  | line :: rest =>
    if ("data: ".data).isPrefixOf line then
      let data := trimChars (line.drop 6)
      if data = "[DONE]".data then finalizeMessage false s
      else
        match parseFrame data with
        | none => procLines s rest
        | some parsed =>
          if truthyOpt parsed.errorVal then
            finalizeMessage true (setErrorContent (parsed.errorVal.getD []) s)
          else if truthyOpt parsed.textVal then
            procLines (appendChunk (parsed.textVal.getD []) s) rest
          else procLines s rest
    else procLines s rest

/-- `_processSSELines(eventBlock, msgId)`: guard on a live message, then
run the line loop on the block split at newlines. -/
def processSSELines (eventBlock : Chars) (s : SM) : SM :=
  match s.msg with
  | none => s
  | some m => if m.finalized then s else procLines s (splitNL eventBlock)

/-- JS `str.split('\n\n')`: greedy left-to-right split on the SSE event
boundary. -/
def splitNN : Chars → List Chars
  | [] => [[]]
  | [c] => [[c]]
  | c :: d :: rest =>
    if c = '\n' ∧ d = '\n' then [] :: splitNN rest
    else
      match splitNN (d :: rest) with
      | [] => [[c]]
      | h :: t => (c :: h) :: t

/-- Event loop body of `_readSSEStream`: process each complete event
block (skipping blank ones). -/
def procEvents (s : SM) : List Chars → SM
  | [] => s
  | e :: rest => procEvents (if !(trimChars e).isEmpty then processSSELines e s else s) rest

/-- One `reader.read()` delivery: append to the SSE buffer, split on
blank lines, retain the trailing (possibly incomplete) part, and
process the complete events. -/
def readChunkStep (text : Chars) (s : SM) : SM :=
  let parts := splitNN (s.sseBuf ++ text)
  procEvents { s with sseBuf := parts.getLastD [] } parts.dropLast

/-- Stream closed (`done`): process any remaining buffered frame, then
finalize without error. -/
def readDoneStep (s : SM) : SM :=
  finalizeMessage false
    (if !(trimChars s.sseBuf).isEmpty then processSSELines s.sseBuf s else s)

/-- Non-abort exception inside the read loop: flag an error only when
no content arrived, then finalize accordingly. -/
def readErrStep (s : SM) : SM :=
  match s.msg with
  | none => s
  | some m =>
    if m.finalized then s
    else finalizeMessage m.content.isEmpty { s with msg := some { m with error := m.content.isEmpty } }

def statusErrMsg (status : Nat) : Chars :=
  if status = 429 then rateLimitedMsg
  else if status = 503 then modelLoadingMsg
  else if status = 500 then serverErrorMsg
  else backendErrorMsg

/-- Fetch resolved OK (initial request or continuation): enter
`STREAMING`, arm the watchdog, start reading with a fresh buffer. -/
def fetchOkStep (s : SM) : SM :=
  { s with st := SState.streaming, sseBuf := [] }

/-- Initial fetch resolved with a non-OK status: overwrite content with
the category message and finalize as an error. -/
def fetchHttpErrStep (status : Nat) (s : SM) : SM :=
  match s.msg with
  | none => s
  | some m =>
    finalizeMessage true
      { s with msg := some { m with content := statusErrMsg status, error := true } }

/-- Initial fetch threw `AbortError`: finalize (no error) unless already
finalized. -/
def fetchExnAbortStep (s : SM) : SM :=
  match s.msg with
  | none => s
  | some m => if m.finalized then s else finalizeMessage false s

/-- Initial fetch threw while offline. -/
def fetchExnOfflineStep (s : SM) : SM :=
  match s.msg with
  | none => s
  | some m =>
    finalizeMessage true
      { s with msg := some { m with content := if m.content.isEmpty then offlineMsg else m.content,
                                    error := true } }

/-- Initial fetch threw for any other reason. -/
def fetchExnOtherStep (s : SM) : SM :=
  match s.msg with
  | none => s
  | some m =>
    finalizeMessage true
      { s with msg := some { m with content := if m.content.isEmpty then connectionErrorMsg else m.content,
                                    error := true } }

/-- Stall watchdog fired: force-finalize a live streaming message,
without an error flag. -/
def watchdogFireStep (s : SM) : SM :=
  match s.msg with
  | none => s
  | some m => if m.isStreaming && !m.finalized then finalizeMessage false s else s

/-- Connect timeout fired while still `CONNECTING`: abort, set the
timeout message and finalize as an error. -/
def connectTimeoutFireStep (s : SM) : SM :=
  if s.st = SState.connecting then
    match s.msg with
    | none => s
    | some m =>
      if m.finalized then s
      else
        finalizeMessage true
          { s with msg := some { m with content := connectTimeoutMsg, error := true } }
  else s

/-- Continuation fetch resolved with a non-OK status: finalize with what
we have, no error. -/
def contHttpErrStep (s : SM) : SM :=
  finalizeMessage false s

/-- Continuation fetch threw: finalize directly with the existing
content (note: no trim, terminal callback emitted inline). -/
def contFetchExnStep (s : SM) : SM :=
  match s.msg with
  | none => s
  | some m =>
    if m.finalized then s
    else
      { s with msg := some { m with finalized := true, isStreaming := false },
               st := SState.idle,
               events := s.events ++ [Ev.fin m.content false] }

/-- `abortCurrentStream()`: user cancel; finalize with whatever content
exists when a stream is active. -/
def abortCurrentStreamStep (s : SM) : SM :=
  if s.st = SState.streaming || s.st = SState.connecting then
    match s.msg with
    | none => s
    | some m => if m.finalized then s else finalizeMessage false s
  else s

/-- Environment events: the asynchronous callbacks the JS event loop can
deliver to the stream manager during one turn.  The model lets the
environment fire them liberally (each handler carries the guards the
source has), giving a superset of the real schedules. -/
inductive EnvEv where
  | fetchOk
  | fetchHttpErr (status : Nat)
  | fetchExnAbort
  | fetchExnOffline
  | fetchExnOther
  | readChunk (text : Chars)
  | readDone
  | readErr
  | watchdogFire
  | connectTimeoutFire
  | contHttpErr
  | contFetchExn
  | userAbort
deriving DecidableEq

def step (e : EnvEv) (s : SM) : SM :=
  match e with
  | EnvEv.fetchOk => fetchOkStep s
  | EnvEv.fetchHttpErr status => fetchHttpErrStep status s
  | EnvEv.fetchExnAbort => fetchExnAbortStep s
  | EnvEv.fetchExnOffline => fetchExnOfflineStep s
  | EnvEv.fetchExnOther => fetchExnOtherStep s
  | EnvEv.readChunk text => readChunkStep text s
  | EnvEv.readDone => readDoneStep s
  | EnvEv.readErr => readErrStep s
  | EnvEv.watchdogFire => watchdogFireStep s
  | EnvEv.connectTimeoutFire => connectTimeoutFireStep s
  | EnvEv.contHttpErr => contHttpErrStep s
  | EnvEv.contFetchExn => contFetchExnStep s
  | EnvEv.userAbort => abortCurrentStreamStep s

/-- State right after the synchronous prefix of `startStream`: fresh
message, continuation counter reset, `CONNECTING`, connect timer armed. -/
def initSM : SM := ⟨SState.connecting, some freshMsg, 0, [], []⟩

/-- A turn: the fresh session driven by a sequence of environment
events. -/
def run (evs : List EnvEv) : SM :=
  evs.foldl (fun s e => step e s) initSM

/-- Synchronous guard of `startStream`: while `STREAMING` or
`CONNECTING` the call returns `null` (modelled `none`, the `Busy`
outcome) before touching any state; otherwise a new turn begins. -/
def startStreamCall (s : SM) : SM × Option Unit :=
  if s.st = SState.streaming || s.st = SState.connecting then (s, none)
  else
    ({ st := SState.connecting, msg := some freshMsg, contCount := 0,
       sseBuf := s.sseBuf, events := s.events }, some ())

/-! ### Observations over the callback log -/

def finEvCount (l : List Ev) : Nat :=
  l.countP (fun e => match e with | Ev.fin _ _ => true | _ => false)

def contEvCount (l : List Ev) : Nat :=
  l.countP (fun e => match e with | Ev.cont => true | _ => false)

def chunkContents (l : List Ev) : List Chars :=
  l.filterMap (fun e => match e with | Ev.chunk c => some c | _ => none)

def SM.finalizedB (s : SM) : Bool :=
  match s.msg with
  | some m => m.finalized
  | none => false

def SM.contentOf (s : SM) : Chars :=
  match s.msg with
  | some m => m.content
  | none => []

/-- Strict-prefix test on content strings. -/
def strictPrefixB (p c : Chars) : Bool :=
  p.isPrefixOf c && decide (p.length < c.length)

/-- Scan step checking chunk contents are strictly prefix-increasing,
with the continuation marker resetting the comparison base. -/
def segStep (acc : Option Chars × Bool) (e : Ev) : Option Chars × Bool :=
  match e with
  | Ev.cont => (none, acc.2)
  | Ev.fin _ _ => acc
  | Ev.chunk c =>
    (some c, acc.2 && (match acc.1 with | none => true | some p => strictPrefixB p c))

/-- Scan step checking chunk contents are strictly prefix-increasing
across the whole turn, continuations included (the claim as stated). -/
def segStepAll (acc : Option Chars × Bool) (e : Ev) : Option Chars × Bool :=
  match e with
  | Ev.cont => acc
  | Ev.fin _ _ => acc
  | Ev.chunk c =>
    (some c, acc.2 && (match acc.1 with | none => true | some p => strictPrefixB p c))

def chunkScanSeg (l : List Ev) : Option Chars × Bool :=
  l.foldl segStep (none, true)

def chunkScanAll (l : List Ev) : Option Chars × Bool :=
  l.foldl segStepAll (none, true)

/-- JSON object text of a delta frame carrying text `d`. -/
def jsonBody (d : Chars) : Chars :=
  [lbraceChar, dquoteChar] ++ "text".data
    ++ (dquoteChar :: ':' :: dquoteChar :: (d ++ [dquoteChar, rbraceChar]))

/-- Wire encoding of a delta frame body (one `data:` line) carrying
text `d`. -/
def deltaFrameBody (d : Chars) : Chars :=
  "data: ".data ++ jsonBody d

/-- Wire encoding of a delta frame carrying text `d`, blank-line
terminated. -/
def deltaFrame (d : Chars) : Chars :=
  deltaFrameBody d ++ ['\n', '\n']

/-- Wire encoding of the completion sentinel frame. -/
def doneFrame : Chars :=
  "data: [DONE]".data ++ ['\n', '\n']

/-- Delta texts needing no JSON escaping and staying on one line. -/
def plainDeltaB (d : Chars) : Bool :=
  d.all (fun c => !(c = dquoteChar) && !(c = '\\') && !(c = '\n'))

/-- The contents the chunk callback receives when the deltas `ds` are
appended in order onto the base content `acc`: the proper prefix sums. -/
def prefixAccum (acc : Chars) : List Chars → List Chars
  | [] => []
  | d :: rest => (acc ++ d) :: prefixAccum (acc ++ d) rest

/-! ### Specification-side definitions

These follow the wording of the specification claims, to be compared
with the definitions translated from the source. -/

/-- The truncation condition exactly as the claim words it: length at
least 20, last character not sentence-terminal (`.`, `!`, `?`, closing
bracket/quote, newline), and the final line fragment (text after the
last newline) longer than 5 characters and itself lacking terminal
punctuation (the same sentence-terminal set). -/
def specTruncationFlag (text : Chars) : Bool :=
  decide (20 ≤ text.length)
    && !(match text.getLast? with | some c => isTerminalLastChar c | none => true)
    && decide (5 < (lastFragment text).length)
    && !(match (lastFragment text).getLast? with | some c => isTerminalLastChar c | none => true)

/-- The truncation condition as amended: the final line fragment is
first trimmed of whitespace, and the fragment's terminal-punctuation
set additionally contains `:` and `;` (the source's second regex). -/
def specTruncationFlagAmended (text : Chars) : Bool :=
  decide (20 ≤ text.length)
    && !(match text.getLast? with | some c => isTerminalLastChar c | none => true)
    && decide (5 < (trimChars (lastFragment text)).length)
    && !(match (trimChars (lastFragment text)).getLast? with
         | some c => isFragTerminalChar c
         | none => true)

/-! ### The session invariant and concrete event traces -/

/-- The master invariant of one turn of the stream session: a live
message exists; the state is one of the three states `_setState` ever
assigns; the terminal callback has fired exactly once iff the message
is finalized; at most one continuation was requested, and the
continuation markers in the log agree with the counter; chunk callback
contents are strictly prefix-increasing within each continuation
segment; and the last chunk content of the current segment is a prefix
of the accumulated content while the message is unfinalized. -/
def Inv (s : SM) : Prop :=
  s.msg.isSome = true
  ∧ (s.st = SState.idle ∨ s.st = SState.connecting ∨ s.st = SState.streaming)
  ∧ finEvCount s.events = (if s.finalizedB then 1 else 0)
  ∧ s.contCount ≤ MAX_CONTINUATION_RETRIES
  ∧ contEvCount s.events = s.contCount
  ∧ (chunkScanSeg s.events).2 = true
  ∧ (s.finalizedB = false → ∀ p, (chunkScanSeg s.events).1 = some p → p <+: s.contentOf)

/-- A single read carrying the `"Hel"`, `"lo wor"`, `"ld."` deltas and
the `[DONE]` sentinel, then stream close. -/
def helloWorldTrace : List EnvEv :=
  [EnvEv.fetchOk,
   EnvEv.readChunk (deltaFrame "Hel".data ++ deltaFrame "lo wor".data
     ++ deltaFrame "ld.".data ++ doneFrame),
   EnvEv.readDone]

/-- A turn whose first stream delivers a delta with trailing whitespace
that looks cut off: the continuation re-bases on the trimmed content. -/
def continuationWhitespaceTrace : List EnvEv :=
  [EnvEv.fetchOk,
   EnvEv.readChunk (deltaFrame "aaaaaaaaaaaaaaaaaaaa and then we ".data),
   EnvEv.readDone,
   EnvEv.fetchOk,
   EnvEv.readChunk (deltaFrame "go".data),
   EnvEv.readDone]

/-- A zero-chunk turn: the initial request fails with HTTP 500. -/
def zeroChunkErrorTrace : List EnvEv := [EnvEv.fetchHttpErr 500]

/-- A turn whose continuation request itself throws. -/
def continuationFailureTrace : List EnvEv :=
  [EnvEv.fetchOk,
   EnvEv.readChunk (deltaFrame "cccccccccccccccccccc and then we".data),
   EnvEv.readDone,
   EnvEv.contFetchExn]

/-- A turn with two consecutive truncation detections: the first stream
and the continuation stream both end in content that looks cut off. -/
def doubleTruncationTrace : List EnvEv :=
  [EnvEv.fetchOk,
   EnvEv.readChunk (deltaFrame "bbbbbbbbbbbbbbbbbbbb and then we".data),
   EnvEv.readDone,
   EnvEv.fetchOk,
   EnvEv.readChunk (deltaFrame " went to".data),
   EnvEv.readDone]

/-! ### Supporting lemmas: trimming -/

theorem head?_dropWhile_false (p : Char → Bool) :
    ∀ (l : Chars) (c : Char), (l.dropWhile p).head? = some c → p c = false := by
  intro l
  induction l with
  | nil => intro c h; simp [List.dropWhile] at h
  | cons a t ih =>
    intro c h
    by_cases hp : p a
    · rw [List.dropWhile_cons_of_pos hp] at h; exact ih c h
    · rw [List.dropWhile_cons_of_neg hp] at h
      simp at h
      rw [← h]; simpa using hp

theorem getLast?_of_suffix {s l : Chars} (h : s <:+ l) (hne : s ≠ []) :
    s.getLast? = l.getLast? := by
  obtain ⟨t, rfl⟩ := h
  exact (List.getLast?_append_of_ne_nil t hne).symm

theorem trimChars_getLast?_not_ws {l : Chars} {c : Char}
    (h : (trimChars l).getLast? = some c) : isWsChar c = false := by
  unfold trimChars at h
  rw [List.getLast?_reverse] at h
  exact head?_dropWhile_false isWsChar _ c h

theorem trimChars_head?_not_ws {l : Chars} {c : Char}
    (h : (trimChars l).head? = some c) : isWsChar c = false := by
  unfold trimChars at h
  rw [List.head?_reverse] at h
  have hne : (l.dropWhile isWsChar).reverse.dropWhile isWsChar ≠ [] := by
    intro hnil; rw [hnil] at h; simp at h
  have hsuf := List.dropWhile_suffix (l := (l.dropWhile isWsChar).reverse) isWsChar
  rw [getLast?_of_suffix hsuf hne, List.getLast?_reverse] at h
  exact head?_dropWhile_false isWsChar _ c h

theorem trimChars_of_all_ws {l : Chars} (h : ∀ ch ∈ l, isWsChar ch = true) :
    trimChars l = [] := by
  have : l.dropWhile isWsChar = [] := by
    rw [List.dropWhile_eq_nil_iff]
    intro x hx; exact h x hx
  simp [trimChars, this]

theorem trimChars_ne_nil_of_head {l : Chars} {c : Char} (h : (trimChars l).head? = some c) :
    trimChars l ≠ [] := by
  intro hnil; rw [hnil] at h; simp at h

/-! ### Supporting lemmas: bounded history -/

theorem takeLast_length (n : Nat) (l : List α) :
    (takeLast n l).length = l.length - (l.length - n) := by
  simp [takeLast]

theorem takeLast_step (n : Nat) (hn : 0 < n) (L : List α) (e : α) :
    (if n < (takeLast n L ++ [e]).length
     then (takeLast n L ++ [e]).drop ((takeLast n L ++ [e]).length - n)
     else takeLast n L ++ [e])
      = takeLast n (L ++ [e]) := by
  have hXlen : (takeLast n L).length = L.length - (L.length - n) := takeLast_length n L
  by_cases hc : n < (takeLast n L ++ [e]).length
  · -- overflow: the list had exactly n entries already, drop the oldest
    have hLn : n ≤ L.length := by
      simp at hc; omega
    have hXn : (takeLast n L).length = n := by omega
    rw [if_pos hc]
    have hdroplen : (takeLast n L ++ [e]).length - n = 1 := by
      simp; omega
    rw [hdroplen]
    have h1 : (1 : Nat) ≤ (takeLast n L).length := by omega
    rw [List.drop_append_of_le_length h1]
    unfold takeLast
    rw [List.drop_drop]
    have h2 : L.length - n + 1 = (L ++ [e]).length - n := by simp; omega
    rw [h2]
    have h3 : (L ++ [e]).length - n ≤ L.length := by simp; omega
    rw [List.drop_append_of_le_length h3]
  · -- still under the cap
    have hLn : L.length < n := by
      simp at hc ⊢; omega
    rw [if_neg hc]
    unfold takeLast
    have h0 : L.length - n = 0 := by omega
    have h1 : (L ++ [e]).length - n = 0 := by simp; omega
    rw [h0, h1]
    simp

theorem addMessage_history_step (r c : Chars) (ts : Nat) (st : MemState) (L : List MemEntry)
    (h : st.history = takeLast MAX_HISTORY_SIZE L) :
    (addMessage r c ts st).history
      = takeLast MAX_HISTORY_SIZE (L ++ acceptedEntries [(r, c, ts)]) := by
  by_cases hb : trimChars c = []
  · simp [addMessage, hb, acceptedEntries, h]
  · simp only [addMessage, hb, if_neg, acceptedEntries, List.filterMap]
    simp only [hb, if_neg, ite_false]
    rw [h]
    exact takeLast_step MAX_HISTORY_SIZE (by decide) L _

theorem acceptedEntries_cons (op : Chars × Chars × Nat) (ops : List (Chars × Chars × Nat)) :
    acceptedEntries (op :: ops) = acceptedEntries [op] ++ acceptedEntries ops := by
  simp only [acceptedEntries, List.filterMap_cons, List.filterMap_nil]
  split <;> simp

theorem runMem_history_aux :
    ∀ (ops : List (Chars × Chars × Nat)) (st : MemState) (L : List MemEntry),
      st.history = takeLast MAX_HISTORY_SIZE L →
      (ops.foldl (fun st op => addMessage op.1 op.2.1 op.2.2 st) st).history
        = takeLast MAX_HISTORY_SIZE (L ++ acceptedEntries ops) := by
  intro ops
  induction ops with
  | nil => intro st L h; simpa [acceptedEntries] using h
  | cons op rest ih =>
    intro st L h
    have hstep := addMessage_history_step op.1 op.2.1 op.2.2 st L h
    have := ih (addMessage op.1 op.2.1 op.2.2 st) (L ++ acceptedEntries [op]) hstep
    simp only [List.foldl_cons]
    rw [this, List.append_assoc, ← acceptedEntries_cons]

theorem runMem_history (ops : List (Chars × Chars × Nat)) :
    (runMem ops).history = takeLast MAX_HISTORY_SIZE (acceptedEntries ops) := by
  have := runMem_history_aux ops initMemState [] (by simp [initMemState, takeLast])
  simpa [runMem] using this

/-! ### Claim theorems: conversation memory -/

/-- C7: after any sequence of `addMessage` calls, the history is exactly
the last-40 suffix of the accepted entries — so its length never
exceeds 40, eviction is oldest-first, and the relative order of the
survivors (a contiguous suffix) is preserved. -/
theorem history_bounded_fifo (ops : List (Chars × Chars × Nat)) :
    (runMem ops).history = takeLast MAX_HISTORY_SIZE (acceptedEntries ops)
    ∧ (runMem ops).history.length ≤ MAX_HISTORY_SIZE
    ∧ (runMem ops).history <:+ acceptedEntries ops := by
  refine ⟨runMem_history ops, ?_, ?_⟩
  · rw [runMem_history ops, takeLast_length]; omega
  · rw [runMem_history ops]; exact List.drop_suffix _ _

/-- C10: `addMessage` with empty or whitespace-only content leaves the
whole module state (history and turn counter) unchanged, and
consequently every entry ever stored in the history has non-empty
content with no leading or trailing whitespace. -/
theorem addMessage_whitespace_noop_trim_invariant :
    (∀ (r c : Chars) (ts : Nat) (st : MemState),
        (∀ ch ∈ c, isWsChar ch = true) → addMessage r c ts st = st)
    ∧ (∀ (ops : List (Chars × Chars × Nat)) (e : MemEntry), e ∈ (runMem ops).history →
        e.content ≠ []
        ∧ (∀ ch, e.content.head? = some ch → isWsChar ch = false)
        ∧ (∀ ch, e.content.getLast? = some ch → isWsChar ch = false)) := by
  constructor
  · intro r c ts st h
    simp [addMessage, trimChars_of_all_ws h]
  · intro ops e he
    rw [runMem_history ops] at he
    have he2 : e ∈ acceptedEntries ops := List.drop_subset _ _ he
    simp only [acceptedEntries, List.mem_filterMap] at he2
    obtain ⟨op, _, hop⟩ := he2
    by_cases hb : trimChars op.2.1 = []
    · simp [hb] at hop
    · simp only [hb, if_neg, ite_false] at hop
      have hcontent : e.content = trimChars op.2.1 := by
        injection hop with h; rw [← h]
      refine ⟨by rw [hcontent]; exact hb, ?_, ?_⟩
      · intro ch hch; rw [hcontent] at hch; exact trimChars_head?_not_ws hch
      · intro ch hch; rw [hcontent] at hch; exact trimChars_getLast?_not_ws hch

/-- Witness for C10 at a concrete input: two spaces are whitespace-only
and the call is a no-op on the fresh state. -/
theorem addMessage_whitespace_noop_witness :
    (∀ ch ∈ ("  ".data : Chars), isWsChar ch = true)
    ∧ addMessage "user".data "  ".data 7 initMemState = initMemState :=
  ⟨by decide, addMessage_whitespace_noop_trim_invariant.1 _ _ _ _ (by decide)⟩

/-- C8: `buildPayload` sends at most 13 messages (12 context-window
entries plus the new user message), and exactly `history + 1` while the
history is shorter than the context window. -/
theorem buildPayload_message_count (gs : Chars → Chars) (ipq : Chars → Bool)
    (u mo : Chars) (st : MemState) :
    (buildPayload gs ipq u mo st).messages.length ≤ 13
    ∧ (st.history.length < 12 →
        (buildPayload gs ipq u mo st).messages.length = st.history.length + 1) := by
  have hlen : (buildPayload gs ipq u mo st).messages.length
      = (takeLast CONTEXT_WINDOW_SIZE st.history).length + 1 := by
    simp [buildPayload, getRecentMessages]
  rw [hlen, takeLast_length]
  unfold CONTEXT_WINDOW_SIZE
  omega

/-- Witness for C8: with two history entries the payload carries exactly
three messages. -/
theorem buildPayload_message_count_witness :
    ((⟨[⟨"user".data, "a".data, 0⟩, ⟨"assistant".data, "b".data, 1⟩], none, 2⟩ : MemState).history.length < 12)
    ∧ (buildPayload id (fun _ => false) "hi".data "General Analysis".data
        ⟨[⟨"user".data, "a".data, 0⟩, ⟨"assistant".data, "b".data, 1⟩], none, 2⟩).messages.length = 3 :=
  ⟨by decide,
    (buildPayload_message_count id (fun _ => false) "hi".data "General Analysis".data
      ⟨[⟨"user".data, "a".data, 0⟩, ⟨"assistant".data, "b".data, 1⟩], none, 2⟩).2 (by decide)⟩

/-- C9 counterexample: the claim as stated says a match against the
fixed follow-up marker set alone makes `isFollowUp` return `true`, but
with fewer than two prior history entries the source returns `false`
before consulting the markers: `"why"` matches the marker set, yet
`isFollowUp` on the fresh (empty-history) state is `false`. -/
theorem isFollowUp_claim_cex :
    markersMatch "why".data = true
    ∧ (isFollowUp "why".data initMemState).1 = false := by
  exact ⟨by decide, by decide⟩

/-- C9 as amended: `isFollowUp` returns `true` exactly when there are at
least two prior history entries and either the word count is below 8 or
the text matches the fixed marker set; it never mutates the state, so
the payloads the build functions produce are unchanged by calling it. -/
theorem isFollowUp_characterization :
    (∀ (st : MemState) (u : Chars),
        isFollowUp u st
          = (decide (2 ≤ st.history.length)
              && (decide (splitWsFieldCount u < 8) || markersMatch u), st))
    ∧ (∀ (st : MemState) (u : Chars) (gs : Chars → Chars) (ipq : Chars → Bool)
        (um mo cp : Chars),
        buildPayload gs ipq um mo (isFollowUp u st).2 = buildPayload gs ipq um mo st
        ∧ buildContinuationPayload cp (isFollowUp u st).2 = buildContinuationPayload cp st) := by
  have main : ∀ (st : MemState) (u : Chars),
      isFollowUp u st
        = (decide (2 ≤ st.history.length)
            && (decide (splitWsFieldCount u < 8) || markersMatch u), st) := by
    intro st u
    unfold isFollowUp
    by_cases h2 : st.history.length < 2
    · have : decide (2 ≤ st.history.length) = false := by simp; omega
      simp [h2, this]
    · have hge : decide (2 ≤ st.history.length) = true := by simp; omega
      by_cases hwc : splitWsFieldCount u < 8
      · simp [h2, hge, hwc]
      · simp [h2, hge, hwc]
  refine ⟨main, ?_⟩
  intro st u gs ipq um mo cp
  have hsnd : (isFollowUp u st).2 = st := by rw [main st u]
  rw [hsnd]
  exact ⟨rfl, rfl⟩

/-! ### Claim theorems: truncation heuristic -/

/-- C4 counterexample: by the claim's characterization a 22-character
text ending in a colon must be flagged (a colon is not in the claimed
sentence-terminal set), but the source's final-fragment regex also
accepts `:` as terminal and does not flag it. -/
theorem truncation_heuristic_claim_cex :
    specTruncationFlag "aaaaaaaaaaaaaaaaaaaaa:".data = true
    ∧ isIncomplete "aaaaaaaaaaaaaaaaaaaaa:".data = false := by
  exact ⟨by decide, by decide⟩

/-- C4 as amended: the flag is raised exactly when the length is at
least 20, the last character is not sentence-terminal, and the
whitespace-trimmed final line fragment is longer than 5 characters and
does not end in the extended terminal set (which also contains `:` and
`;`); the claim's examples hold with the first one read as a ≥20-char
text ending in "and then we". -/
theorem truncation_heuristic_characterization :
    (∀ t : Chars, isIncomplete t = specTruncationFlagAmended t)
    ∧ isIncomplete "the cat sat and then we".data = true
    ∧ isIncomplete "...done.".data = false
    ∧ isIncomplete "ok".data = false := by
  refine ⟨?_, by decide, by decide, by decide⟩
  intro t
  unfold isIncomplete specTruncationFlagAmended
  by_cases hlen : t.length < 20
  · have : decide (20 ≤ t.length) = false := by simp; omega
    simp [hlen, this]
  · have h20 : decide (20 ≤ t.length) = true := by simp; omega
    have hne : t ≠ [] := by
      intro h; rw [h] at hlen; simp at hlen
    obtain ⟨c, hc⟩ : ∃ c, t.getLast? = some c := by
      cases hg : t.getLast? with
      | none => exact absurd (List.getLast?_eq_none_iff.mp hg) hne
      | some c => exact ⟨c, rfl⟩
    rw [if_neg hlen, hc, h20]
    by_cases hterm : isTerminalLastChar c
    · simp [hterm]
    · simp only [hterm, if_neg, ite_false, Bool.not_false, Bool.true_and]
      by_cases hfrag : 5 < (trimChars (lastFragment t)).length
      · have h5 : decide (5 < (trimChars (lastFragment t)).length) = true := by simp; omega
        simp only [h5, Bool.true_and]
        cases hl : (trimChars (lastFragment t)).getLast? with
        | none =>
          have : trimChars (lastFragment t) = [] := List.getLast?_eq_none_iff.mp hl
          rw [this] at hfrag; simp at hfrag
        | some d =>
          by_cases hd : isFragTerminalChar d
          · simp [hfrag, hd]
          · simp [hfrag, hd]
      · have h5 : decide (5 < (trimChars (lastFragment t)).length) = false := by simp; omega
        simp [hfrag, h5]

/-! ### Supporting lemmas: stream session invariant -/

theorem finEvCount_append (l l2 : List Ev) :
    finEvCount (l ++ l2) = finEvCount l + finEvCount l2 := by
  simp [finEvCount, List.countP_append]

theorem contEvCount_append (l l2 : List Ev) :
    contEvCount (l ++ l2) = contEvCount l + contEvCount l2 := by
  simp [contEvCount, List.countP_append]

theorem chunkScanSeg_append (l l2 : List Ev) :
    chunkScanSeg (l ++ l2) = l2.foldl segStep (chunkScanSeg l) := by
  simp [chunkScanSeg, List.foldl_append]

@[simp] theorem finEvCount_nil : finEvCount [] = 0 := rfl

@[simp] theorem finEvCount_one_chunk (c : Chars) : finEvCount [Ev.chunk c] = 0 := rfl

@[simp] theorem finEvCount_one_cont : finEvCount [Ev.cont] = 0 := rfl

@[simp] theorem finEvCount_one_fin (c : Chars) (w : Bool) : finEvCount [Ev.fin c w] = 1 := rfl

@[simp] theorem contEvCount_one_chunk (c : Chars) : contEvCount [Ev.chunk c] = 0 := rfl

@[simp] theorem contEvCount_one_cont : contEvCount [Ev.cont] = 1 := rfl

@[simp] theorem contEvCount_one_fin (c : Chars) (w : Bool) : contEvCount [Ev.fin c w] = 0 := rfl

theorem Inv_initSM : Inv initSM := by
  refine ⟨rfl, Or.inr (Or.inl rfl), rfl, by decide, rfl, rfl, ?_⟩
  intro _ p hp
  simp [chunkScanSeg, initSM, List.foldl] at hp

theorem Inv_appendChunk {s : SM} (t : Chars) (ht : t ≠ []) (h : Inv s) :
    Inv (appendChunk t s) := by
  obtain ⟨h1, h2, h3, h4, h5, h6, h7⟩ := h
  cases hm : s.msg with
  | none => rw [hm] at h1; simp at h1
  | some m =>
    by_cases hf : m.finalized
    · have hs : appendChunk t s = s := by simp [appendChunk, hm, hf]
      rw [hs]; exact ⟨h1, h2, h3, h4, h5, h6, h7⟩
    · have hf' : m.finalized = false := by simpa using hf
      have hfb : s.finalizedB = m.finalized := by simp [SM.finalizedB, hm]
      have hco : s.contentOf = m.content := by simp [SM.contentOf, hm]
      rw [hfb, hf'] at h3
      have hs : appendChunk t s
          = { s with msg := some { m with streamBuffer := m.streamBuffer ++ t,
                                          content := m.content ++ t,
                                          chunkCount := m.chunkCount + 1 },
                     events := s.events ++ [Ev.chunk (m.content ++ t)] } := by
        simp [appendChunk, hm, hf]
      rw [hs]
      refine ⟨by simp, by simpa using h2, ?_, h4, ?_, ?_, ?_⟩
      · simp [SM.finalizedB, finEvCount_append, hf', h3]
      · simp [contEvCount_append, h5]
      · rw [chunkScanSeg_append]
        simp only [List.foldl_cons, List.foldl_nil, segStep]
        cases hsc : (chunkScanSeg s.events).1 with
        | none => simp [h6]
        | some p =>
          have hp : p <+: m.content := by
            have := h7 (by rw [hfb, hf']) p hsc
            rwa [hco] at this
          have hpre : p.isPrefixOf (m.content ++ t) = true :=
            List.isPrefixOf_iff_prefix.mpr (hp.trans (List.prefix_append m.content t))
          have hlt : p.length < m.content.length + t.length := by
            have hle := hp.length_le
            have ht' : 0 < t.length := List.length_pos.mpr ht
            omega
          simp [h6, strictPrefixB, hpre, hlt]
      · intro _ p hp
        rw [chunkScanSeg_append] at hp
        simp only [List.foldl_cons, List.foldl_nil, segStep] at hp
        have hpe : p = m.content ++ t := by
          injection hp with hp'; exact hp'.symm
        rw [hpe]
        simp [SM.contentOf]

theorem Inv_finalizeMessage {s : SM} (w : Bool) (h : Inv s) :
    Inv (finalizeMessage w s) := by
  obtain ⟨h1, h2, h3, h4, h5, h6, h7⟩ := h
  cases hm : s.msg with
  | none => rw [hm] at h1; simp at h1
  | some m =>
    by_cases hf : m.finalized
    · have hs : finalizeMessage w s = s := by simp [finalizeMessage, hm, hf]
      rw [hs]; exact ⟨h1, h2, h3, h4, h5, h6, h7⟩
    · have hf' : m.finalized = false := by simpa using hf
      have hfb : s.finalizedB = m.finalized := by simp [SM.finalizedB, hm]
      rw [hfb, hf'] at h3
      by_cases hcond : (!w && !(trimChars m.content).isEmpty && isIncomplete (trimChars m.content)
          && decide (s.contCount < MAX_CONTINUATION_RETRIES)) = true
      · -- continuation branch: withhold the terminal callback
        have hlt : s.contCount < MAX_CONTINUATION_RETRIES := by
          simp at hcond; exact hcond.2
        have hs : finalizeMessage w s
            = { s with msg := some { m with content := trimChars m.content, streamBuffer := [],
                                            isStreaming := true, finalized := false, error := w },
                       contCount := s.contCount + 1, st := SState.connecting,
                       events := s.events ++ [Ev.cont] } := by
          simp only [finalizeMessage, hm, hf']
          rw [if_neg (by simp), if_pos hcond]
        rw [hs]
        refine ⟨by simp, by simp, ?_, ?_, ?_, ?_, ?_⟩
        · simp [SM.finalizedB, finEvCount_append, h3]
        · show s.contCount + 1 ≤ MAX_CONTINUATION_RETRIES
          omega
        · simp [contEvCount_append, h5]
        · rw [chunkScanSeg_append]
          simp [segStep, h6]
        · intro _ p hp
          rw [chunkScanSeg_append] at hp
          simp [segStep] at hp
      · -- terminal branch: emit the finalize callback
        have hs : finalizeMessage w s
            = { s with msg := some { m with content := trimChars m.content, streamBuffer := [],
                                            isStreaming := false, finalized := true, error := w },
                       st := SState.idle,
                       events := s.events ++ [Ev.fin (trimChars m.content) w] } := by
          simp only [finalizeMessage, hm, hf']
          rw [if_neg (by simp), if_neg hcond]
        rw [hs]
        refine ⟨by simp, by simp, ?_, h4, ?_, ?_, ?_⟩
        · simp [SM.finalizedB, finEvCount_append, h3]
        · simp [contEvCount_append, h5]
        · rw [chunkScanSeg_append]
          simp [segStep, h6]
        · intro hfb2 p _
          simp [SM.finalizedB] at hfb2

/-- Finalizing with the error flag after an arbitrary rewrite of the
message content (the shape of every error path in the source)
preserves the invariant: the error branch always emits the terminal
callback, so the prefix clause is vacuous afterwards. -/
theorem Inv_finalizeMessage_err {s : SM} {m : Msg} (hm : s.msg = some m)
    (X : Chars) (b : Bool) (h : Inv s) :
    Inv (finalizeMessage true { s with msg := some { m with content := X, error := b } }) := by
  obtain ⟨h1, h2, h3, h4, h5, h6, h7⟩ := h
  have hfb : s.finalizedB = m.finalized := by simp [SM.finalizedB, hm]
  by_cases hf : m.finalized
  · have hs : finalizeMessage true { s with msg := some { m with content := X, error := b } }
        = { s with msg := some { m with content := X, error := b } } := by
      simp [finalizeMessage, hf]
    rw [hs]
    refine ⟨by simp, by simpa using h2, ?_, h4, by simpa using h5, by simpa using h6, ?_⟩
    · simp only [SM.finalizedB]
      rw [hfb] at h3
      simpa [hf] using h3
    · intro hfb2 p _
      simp [SM.finalizedB, hf] at hfb2
  · have hf' : m.finalized = false := by simpa using hf
    rw [hfb, hf'] at h3
    have hs : finalizeMessage true { s with msg := some { m with content := X, error := b } }
        = { s with msg := some { m with content := trimChars X, streamBuffer := [],
                                        isStreaming := false, finalized := true, error := true },
                   st := SState.idle,
                   events := s.events ++ [Ev.fin (trimChars X) true] } := by
      simp only [finalizeMessage, hf']
      rw [if_neg (by simp), if_neg (by simp)]
    rw [hs]
    refine ⟨by simp, by simp, ?_, h4, ?_, ?_, ?_⟩
    · simp [SM.finalizedB, finEvCount_append, h3]
    · simp [contEvCount_append, h5]
    · rw [chunkScanSeg_append]
      simp [segStep, h6]
    · intro hfb2 p _
      simp [SM.finalizedB] at hfb2

/-- Changing only the error flag of the live message preserves the
invariant (no invariant component mentions the flag). -/
theorem Inv_set_error {s : SM} {m : Msg} (hm : s.msg = some m) (b : Bool) (h : Inv s) :
    Inv { s with msg := some { m with error := b } } := by
  obtain ⟨h1, h2, h3, h4, h5, h6, h7⟩ := h
  refine ⟨by simp, by simpa using h2, ?_, h4, by simpa using h5, by simpa using h6, ?_⟩
  · show finEvCount s.events = _
    simpa [SM.finalizedB, hm] using h3
  · intro hf p hp
    simp only [SM.finalizedB] at hf
    have := h7 (by simp [SM.finalizedB, hm, hf]) p (by simpa using hp)
    simpa [SM.contentOf, hm] using this

theorem truthyOpt_getD_ne_nil {o : Option Chars} (h : truthyOpt o = true) :
    o.getD [] ≠ [] := by
  cases o with
  | none => simp [truthyOpt] at h
  | some v =>
    simp only [truthyOpt, Bool.not_eq_true'] at h
    simpa [List.isEmpty_iff] using h

theorem Inv_finalize_setErrorContent (e : Chars) {s : SM} (h : Inv s) :
    Inv (finalizeMessage true (setErrorContent e s)) := by
  cases hm : s.msg with
  | none => simpa [setErrorContent, finalizeMessage, hm] using h
  | some m =>
    have hset : setErrorContent e s
        = { s with
            msg := some { m with
              error := true,
              content := if m.content.isEmpty then e else m.content } } := by
      simp [setErrorContent, hm]
    rw [hset]
    exact Inv_finalizeMessage_err hm _ true h

theorem Inv_procLines : ∀ (lines : List Chars) {s : SM}, Inv s → Inv (procLines s lines) := by
  intro lines
  induction lines with
  | nil => intro s h; exact h
  | cons line rest ih =>
    intro s h
    simp only [procLines]
    split
    · split
      · exact Inv_finalizeMessage false h
      · split
        · exact ih h
        · split
          · exact Inv_finalize_setErrorContent _ h
          · split
            · next htxt =>
              exact ih (Inv_appendChunk _ (truthyOpt_getD_ne_nil htxt) h)
            · exact ih h
    · exact ih h

theorem Inv_processSSELines (b : Chars) {s : SM} (h : Inv s) :
    Inv (processSSELines b s) := by
  cases hm : s.msg with
  | none => simpa [processSSELines, hm] using h
  | some m =>
    by_cases hf : m.finalized
    · simpa [processSSELines, hm, hf] using h
    · have hf' : m.finalized = false := by simpa using hf
      simpa [processSSELines, hm, hf'] using Inv_procLines (splitNL b) h

theorem Inv_procEvents : ∀ (blocks : List Chars) {s : SM}, Inv s → Inv (procEvents s blocks) := by
  intro blocks
  induction blocks with
  | nil => intro s h; exact h
  | cons b rest ih =>
    intro s h
    simp only [procEvents]
    by_cases hb : (!(trimChars b).isEmpty) = true
    · rw [if_pos hb]
      exact ih (Inv_processSSELines b h)
    · rw [if_neg hb]
      exact ih h

theorem Inv_setBuf {s : SM} (b : Chars) (h : Inv s) : Inv { s with sseBuf := b } := h

theorem Inv_readChunkStep (t : Chars) {s : SM} (h : Inv s) : Inv (readChunkStep t s) :=
  Inv_procEvents _ (Inv_setBuf _ h)

theorem Inv_readDoneStep {s : SM} (h : Inv s) : Inv (readDoneStep s) := by
  unfold readDoneStep
  by_cases hb : (!(trimChars s.sseBuf).isEmpty) = true
  · rw [if_pos hb]
    exact Inv_finalizeMessage false (Inv_processSSELines _ h)
  · rw [if_neg hb]
    exact Inv_finalizeMessage false h

theorem Inv_readErrStep {s : SM} (h : Inv s) : Inv (readErrStep s) := by
  cases hm : s.msg with
  | none =>
    have heq : readErrStep s = s := by simp [readErrStep, hm]
    rw [heq]; exact h
  | some m =>
    by_cases hf : m.finalized
    · have heq : readErrStep s = s := by simp [readErrStep, hm, hf]
      rw [heq]; exact h
    · cases hE : m.content.isEmpty
      · have heq : readErrStep s
            = finalizeMessage false { s with msg := some { m with error := false } } := by
          simp [readErrStep, hm, hf, hE]
        rw [heq]
        exact Inv_finalizeMessage false (Inv_set_error hm false h)
      · have heq : readErrStep s
            = finalizeMessage true { s with msg := some { m with error := true } } := by
          simp [readErrStep, hm, hf, hE]
        rw [heq]
        exact Inv_finalizeMessage_err hm m.content true h

theorem Inv_fetchOkStep {s : SM} (h : Inv s) : Inv (fetchOkStep s) := by
  obtain ⟨h1, h2, h3, h4, h5, h6, h7⟩ := h
  exact ⟨h1, Or.inr (Or.inr rfl), h3, h4, h5, h6, h7⟩

theorem Inv_fetchHttpErrStep (status : Nat) {s : SM} (h : Inv s) :
    Inv (fetchHttpErrStep status s) := by
  unfold fetchHttpErrStep
  cases hm : s.msg with
  | none => exact h
  | some m => exact Inv_finalizeMessage_err hm (statusErrMsg status) true h

theorem Inv_fetchExnAbortStep {s : SM} (h : Inv s) : Inv (fetchExnAbortStep s) := by
  cases hm : s.msg with
  | none =>
    have heq : fetchExnAbortStep s = s := by simp [fetchExnAbortStep, hm]
    rw [heq]; exact h
  | some m =>
    by_cases hf : m.finalized
    · have heq : fetchExnAbortStep s = s := by simp [fetchExnAbortStep, hm, hf]
      rw [heq]; exact h
    · have heq : fetchExnAbortStep s = finalizeMessage false s := by
        simp [fetchExnAbortStep, hm, hf]
      rw [heq]; exact Inv_finalizeMessage false h

theorem Inv_fetchExnOfflineStep {s : SM} (h : Inv s) : Inv (fetchExnOfflineStep s) := by
  unfold fetchExnOfflineStep
  cases hm : s.msg with
  | none => exact h
  | some m => exact Inv_finalizeMessage_err hm _ true h

theorem Inv_fetchExnOtherStep {s : SM} (h : Inv s) : Inv (fetchExnOtherStep s) := by
  unfold fetchExnOtherStep
  cases hm : s.msg with
  | none => exact h
  | some m => exact Inv_finalizeMessage_err hm _ true h

theorem Inv_watchdogFireStep {s : SM} (h : Inv s) : Inv (watchdogFireStep s) := by
  cases hm : s.msg with
  | none =>
    have heq : watchdogFireStep s = s := by simp [watchdogFireStep, hm]
    rw [heq]; exact h
  | some m =>
    by_cases hc : (m.isStreaming && !m.finalized) = true
    · have heq : watchdogFireStep s = finalizeMessage false s := by
        simp [watchdogFireStep, hm, hc]
      rw [heq]; exact Inv_finalizeMessage false h
    · have heq : watchdogFireStep s = s := by simp [watchdogFireStep, hm, hc]
      rw [heq]; exact h

theorem Inv_connectTimeoutFireStep {s : SM} (h : Inv s) : Inv (connectTimeoutFireStep s) := by
  by_cases hst : s.st = SState.connecting
  · cases hm : s.msg with
    | none =>
      have heq : connectTimeoutFireStep s = s := by simp [connectTimeoutFireStep, hst, hm]
      rw [heq]; exact h
    | some m =>
      by_cases hf : m.finalized
      · have heq : connectTimeoutFireStep s = s := by
          simp [connectTimeoutFireStep, hst, hm, hf]
        rw [heq]; exact h
      · have heq : connectTimeoutFireStep s
            = finalizeMessage true
                { s with msg := some { m with content := connectTimeoutMsg, error := true } } := by
          simp [connectTimeoutFireStep, hst, hm, hf]
        rw [heq]
        exact Inv_finalizeMessage_err hm connectTimeoutMsg true h
  · have heq : connectTimeoutFireStep s = s := by simp [connectTimeoutFireStep, hst]
    rw [heq]; exact h

theorem Inv_contHttpErrStep {s : SM} (h : Inv s) : Inv (contHttpErrStep s) :=
  Inv_finalizeMessage false h

theorem Inv_contFetchExnStep {s : SM} (h : Inv s) : Inv (contFetchExnStep s) := by
  obtain ⟨h1, h2, h3, h4, h5, h6, h7⟩ := h
  cases hm : s.msg with
  | none =>
    have heq : contFetchExnStep s = s := by simp [contFetchExnStep, hm]
    rw [heq]; exact ⟨h1, h2, h3, h4, h5, h6, h7⟩
  | some m =>
    by_cases hf : m.finalized
    · have heq : contFetchExnStep s = s := by simp [contFetchExnStep, hm, hf]
      rw [heq]; exact ⟨h1, h2, h3, h4, h5, h6, h7⟩
    · have hf' : m.finalized = false := by simpa using hf
      have hfb : s.finalizedB = m.finalized := by simp [SM.finalizedB, hm]
      rw [hfb, hf'] at h3
      have heq : contFetchExnStep s
          = { s with msg := some { m with finalized := true, isStreaming := false },
                     st := SState.idle,
                     events := s.events ++ [Ev.fin m.content false] } := by
        simp [contFetchExnStep, hm, hf]
      rw [heq]
      refine ⟨by simp, by simp, ?_, h4, ?_, ?_, ?_⟩
      · simp [SM.finalizedB, finEvCount_append, h3]
      · simp [contEvCount_append, h5]
      · rw [chunkScanSeg_append]
        simp [segStep, h6]
      · intro hfb2 p _
        simp [SM.finalizedB] at hfb2

theorem Inv_abortCurrentStreamStep {s : SM} (h : Inv s) : Inv (abortCurrentStreamStep s) := by
  by_cases hst : (s.st = SState.streaming || s.st = SState.connecting) = true
  · cases hm : s.msg with
    | none =>
      have heq : abortCurrentStreamStep s = s := by simp [abortCurrentStreamStep, hst, hm]
      rw [heq]; exact h
    | some m =>
      by_cases hf : m.finalized
      · have heq : abortCurrentStreamStep s = s := by
          simp [abortCurrentStreamStep, hst, hm, hf]
        rw [heq]; exact h
      · have heq : abortCurrentStreamStep s = finalizeMessage false s := by
          simp [abortCurrentStreamStep, hst, hm, hf]
        rw [heq]; exact Inv_finalizeMessage false h
  · have heq : abortCurrentStreamStep s = s := by simp [abortCurrentStreamStep, hst]
    rw [heq]; exact h

theorem Inv_step (e : EnvEv) {s : SM} (h : Inv s) : Inv (step e s) := by
  cases e with
  | fetchOk => exact Inv_fetchOkStep h
  | fetchHttpErr status => exact Inv_fetchHttpErrStep status h
  | fetchExnAbort => exact Inv_fetchExnAbortStep h
  | fetchExnOffline => exact Inv_fetchExnOfflineStep h
  | fetchExnOther => exact Inv_fetchExnOtherStep h
  | readChunk t => exact Inv_readChunkStep t h
  | readDone => exact Inv_readDoneStep h
  | readErr => exact Inv_readErrStep h
  | watchdogFire => exact Inv_watchdogFireStep h
  | connectTimeoutFire => exact Inv_connectTimeoutFireStep h
  | contHttpErr => exact Inv_contHttpErrStep h
  | contFetchExn => exact Inv_contFetchExnStep h
  | userAbort => exact Inv_abortCurrentStreamStep h

theorem Inv_run (evs : List EnvEv) : Inv (run evs) := by
  suffices haux : ∀ (l : List EnvEv) (s : SM), Inv s → Inv (l.foldl (fun s e => step e s) s) by
    exact haux evs initSM Inv_initSM
  intro l
  induction l with
  | nil => intro s h; exact h
  | cons e rest ih => intro s h; exact ih _ (Inv_step e h)

/-! ### Supporting lemmas: SSE buffering and partition invariance -/

theorem splitNN_ne_nil : ∀ l : Chars, splitNN l ≠ []
  | [] => by simp [splitNN]
  | [c] => by simp [splitNN]
  | c :: d :: rest => by
    simp only [splitNN]
    split
    · simp
    · split <;> simp

theorem splitNN_singleton : ∀ (l h : Chars), splitNN l = [h] → h = l
  | [], h => by
    intro he
    simp [splitNN] at he
    exact he
  | [c], h => by
    intro he
    simp [splitNN] at he
    exact he.symm
  | c :: d :: rest, h => by
    simp only [splitNN]
    split
    · intro heq
      exfalso
      have h2 : splitNN rest = [] := by injection heq
      exact splitNN_ne_nil rest h2
    · cases hS : splitNN (d :: rest) with
      | nil => intro _; exact absurd hS (splitNN_ne_nil _)
      | cons h0 t0 =>
        intro heq
        have heq' : (c :: h0) :: t0 = [h] := heq
        have ht0 : t0 = [] := by injection heq'
        have hh : c :: h0 = h := by injection heq'
        rw [ht0] at hS
        have hr := splitNN_singleton (d :: rest) h0 hS
        rw [← hh, hr]

theorem getLastD_append_of_ne_nil (A : List α) {Q : List α} (h : Q ≠ []) (d : α) :
    (A ++ Q).getLastD d = Q.getLastD d := by
  rw [List.getLastD_eq_getLast?, List.getLastD_eq_getLast?,
    List.getLast?_append_of_ne_nil A h]

theorem getLastD_cons_of_ne_nil (a : α) {l : List α} (h : l ≠ []) (d : α) :
    (a :: l).getLastD d = l.getLastD d := by
  have : a :: l = [a] ++ l := rfl
  rw [this, getLastD_append_of_ne_nil [a] h d]

theorem dropLast_cons_of_ne_nil (a : α) {l : List α} (h : l ≠ []) :
    (a :: l).dropLast = a :: l.dropLast := by
  cases l with
  | nil => exact absurd rfl h
  | cons b t => rfl

/-- Splitting a concatenation on the blank-line boundary: the complete
events of the first part are unchanged, and its trailing (incomplete)
part recombines with the appended text — exactly the buffering
behaviour of `_readSSEStream`. -/
theorem splitNN_append : ∀ (x y : Chars),
    splitNN (x ++ y) = (splitNN x).dropLast ++ splitNN ((splitNN x).getLastD [] ++ y)
  | [], y => by simp [splitNN]
  | [c], y => by simp [splitNN]
  | c :: d :: rest, y => by
    by_cases hsep : c = '\n' ∧ d = '\n'
    · obtain ⟨hc, hd⟩ := hsep
      subst hc; subst hd
      have hS := splitNN_ne_nil rest
      have heq2 : splitNN ('\n' :: '\n' :: rest) = [] :: splitNN rest := by
        simp [splitNN]
      have heq1 : splitNN ('\n' :: '\n' :: (rest ++ y)) = [] :: splitNN (rest ++ y) := by
        simp [splitNN]
      rw [heq2, dropLast_cons_of_ne_nil _ hS, getLastD_cons_of_ne_nil _ hS]
      have hca : ('\n' :: '\n' :: rest : Chars) ++ y = '\n' :: '\n' :: (rest ++ y) := by simp
      rw [hca, heq1, splitNN_append rest y]
      simp
    · cases hS : splitNN (d :: rest) with
      | nil => exact absurd hS (splitNN_ne_nil _)
      | cons h0 t0 =>
        have hx : splitNN (c :: d :: rest) = (c :: h0) :: t0 := by
          simp only [splitNN]
          rw [if_neg hsep, hS]
        cases t0 with
        | nil =>
          have hh0 : h0 = d :: rest := splitNN_singleton _ _ hS
          rw [hx, hh0]
          simp
        | cons t1 t2 =>
          have ht0 : (t1 :: t2 : List Chars) ≠ [] := by simp
          have hIH := splitNN_append (d :: rest) y
          rw [hS, dropLast_cons_of_ne_nil _ ht0, getLastD_cons_of_ne_nil _ ht0] at hIH
          have hxy : splitNN ((c :: d :: rest : Chars) ++ y)
              = (c :: h0) :: ((t1 :: t2).dropLast ++ splitNN ((t1 :: t2).getLastD [] ++ y)) := by
            simp only [List.cons_append]
            simp only [splitNN]
            rw [if_neg hsep]
            rw [show splitNN (d :: (rest ++ y))
                = h0 :: ((t1 :: t2).dropLast ++ splitNN ((t1 :: t2).getLastD [] ++ y)) from by
              simpa using hIH]
          rw [hxy, hx, dropLast_cons_of_ne_nil _ ht0, getLastD_cons_of_ne_nil _ ht0]
          simp

theorem procEvents_append (A B : List Chars) :
    ∀ s : SM, procEvents s (A ++ B) = procEvents (procEvents s A) B := by
  induction A with
  | nil => intro s; rfl
  | cons a rest ih =>
    intro s
    simp only [List.cons_append, procEvents]
    exact ih _

theorem appendChunk_setBuf (t b : Chars) (s : SM) :
    appendChunk t { s with sseBuf := b } = { appendChunk t s with sseBuf := b } := by
  cases hm : s.msg with
  | none => simp [appendChunk, hm]
  | some m =>
    by_cases hf : m.finalized
    · simp [appendChunk, hm, hf]
    · simp [appendChunk, hm, hf]

theorem finalizeMessage_setBuf (w : Bool) (b : Chars) (s : SM) :
    finalizeMessage w { s with sseBuf := b } = { finalizeMessage w s with sseBuf := b } := by
  cases hm : s.msg with
  | none => simp [finalizeMessage, hm]
  | some m =>
    by_cases hf : m.finalized
    · simp [finalizeMessage, hm, hf]
    · by_cases hcond : (!w && !(trimChars m.content).isEmpty && isIncomplete (trimChars m.content)
          && decide (s.contCount < MAX_CONTINUATION_RETRIES)) = true
      · simp [finalizeMessage, hm, hf, hcond]
      · simp [finalizeMessage, hm, hf, hcond]

theorem setErrorContent_setBuf (e b : Chars) (s : SM) :
    setErrorContent e { s with sseBuf := b } = { setErrorContent e s with sseBuf := b } := by
  cases hm : s.msg with
  | none => simp [setErrorContent, hm]
  | some m => simp [setErrorContent, hm]

theorem appendChunk_sseBuf (t : Chars) (s : SM) : (appendChunk t s).sseBuf = s.sseBuf := by
  cases hm : s.msg with
  | none => simp [appendChunk, hm]
  | some m =>
    by_cases hf : m.finalized
    · simp [appendChunk, hm, hf]
    · simp [appendChunk, hm, hf]

theorem procLines_setBuf : ∀ (lines : List Chars) (b : Chars) (s : SM),
    procLines { s with sseBuf := b } lines = { procLines s lines with sseBuf := b } := by
  intro lines
  induction lines with
  | nil => intro b s; rfl
  | cons line rest ih =>
    intro b s
    simp only [procLines]
    split
    · split
      · exact finalizeMessage_setBuf false b s
      · split
        · exact ih b s
        · split
          · rw [setErrorContent_setBuf]
            exact finalizeMessage_setBuf true _ _
          · split
            · rw [appendChunk_setBuf]
              exact ih b _
            · exact ih b s
    · exact ih b s

theorem processSSELines_setBuf (blk b : Chars) (s : SM) :
    processSSELines blk { s with sseBuf := b } = { processSSELines blk s with sseBuf := b } := by
  obtain ⟨st0, msg0, cc0, buf0, evs0⟩ := s
  cases msg0 with
  | none => simp [processSSELines]
  | some m =>
    by_cases hf : m.finalized
    · simp [processSSELines, hf]
    · have hf' : m.finalized = false := by simpa using hf
      simp only [processSSELines, hf', Bool.false_eq_true, if_false]
      exact procLines_setBuf (splitNL blk) b ⟨st0, some m, cc0, buf0, evs0⟩

theorem procEvents_setBuf : ∀ (blocks : List Chars) (b : Chars) (s : SM),
    procEvents { s with sseBuf := b } blocks = { procEvents s blocks with sseBuf := b } := by
  intro blocks
  induction blocks with
  | nil => intro b s; rfl
  | cons blk rest ih =>
    intro b s
    simp only [procEvents]
    by_cases hb : (!(trimChars blk).isEmpty) = true
    · rw [if_pos hb, if_pos hb, processSSELines_setBuf]
      exact ih b _
    · rw [if_neg hb, if_neg hb]
      exact ih b s

/-- One read of `r1 ++ r2` is indistinguishable from two reads of `r1`
then `r2`: the SSE buffer logic is invariant under repartitioning the
wire stream. -/
theorem readChunkStep_comp (r1 r2 : Chars) (s : SM) :
    readChunkStep r2 (readChunkStep r1 s) = readChunkStep (r1 ++ r2) s := by
  have hQne := splitNN_ne_nil ((splitNN (s.sseBuf ++ r1)).getLastD [] ++ r2)
  simp only [readChunkStep, procEvents_setBuf, ← List.append_assoc,
    splitNN_append (s.sseBuf ++ r1) r2, List.dropLast_append_of_ne_nil _ hQne,
    getLastD_append_of_ne_nil _ hQne, procEvents_append]

/-- Feeding any non-empty partition of the wire stream equals feeding it
as one read. -/
theorem readChunk_partition : ∀ (reads : List Chars), reads ≠ [] → ∀ s : SM,
    reads.foldl (fun st r => readChunkStep r st) s = readChunkStep reads.flatten s := by
  intro reads
  induction reads with
  | nil => intro h; exact absurd rfl h
  | cons r rest ih =>
    intro _ s
    cases rest with
    | nil => simp
    | cons r2 rest2 =>
      rw [List.foldl_cons, ih (by simp) (readChunkStep r s), readChunkStep_comp]
      simp

/-! ### Supporting lemmas: in-order delta accumulation -/

theorem plainDeltaB_spec {d : Chars} (h : plainDeltaB d = true) :
    ∀ c ∈ d, c ≠ dquoteChar ∧ c ≠ '\\' ∧ c ≠ '\n' := by
  intro c hc
  simp only [plainDeltaB, List.all_eq_true] at h
  have := h c hc
  simp only [Bool.and_eq_true, Bool.not_eq_true'] at this
  refine ⟨?_, ?_, ?_⟩
  · simpa using this.1.1
  · simpa using this.1.2
  · simpa using this.2

theorem readStringLit_plain : ∀ (d : Chars), (∀ c ∈ d, c ≠ dquoteChar ∧ c ≠ '\\') →
    ∀ r : Chars, readStringLit (d ++ dquoteChar :: r) = some (d, r) := by
  intro d
  induction d with
  | nil =>
    intro _ r
    cases r with
    | nil => simp [readStringLit]
    | cons x xs => simp [readStringLit]
  | cons c d' ih =>
    intro h r
    have hc := h c (by simp)
    have hih := ih (fun x hx => h x (by simp [hx])) r
    cases d' with
    | nil =>
      simp only [List.nil_append] at hih
      simp only [List.cons_append, List.nil_append]
      simp [readStringLit, hc.1, hc.2, hih]
    | cons y d'' =>
      simp only [List.cons_append] at hih ⊢
      simp [readStringLit, hc.1, hc.2, hih]

theorem head?_shape {l : Chars} {a : Char} (h : l.head? = some a) :
    ∃ t, l = a :: t := by
  cases l with
  | nil => simp at h
  | cons x t =>
    simp at h
    exact ⟨t, by rw [h]⟩

theorem trimChars_eq_self {l : Chars} {a b : Char}
    (ha : l.head? = some a) (hwa : isWsChar a = false)
    (hb : l.getLast? = some b) (hwb : isWsChar b = false) :
    trimChars l = l := by
  obtain ⟨t, rfl⟩ := head?_shape ha
  have h1 : (a :: t).dropWhile isWsChar = a :: t :=
    List.dropWhile_cons_of_neg (by simp [hwa])
  unfold trimChars
  rw [h1]
  have hrev : (a :: t).reverse.head? = some b := by
    rw [List.head?_reverse]; exact hb
  obtain ⟨t2, hrev2⟩ := head?_shape hrev
  rw [hrev2, List.dropWhile_cons_of_neg (by simp [hwb]), ← hrev2, List.reverse_reverse]

theorem splitNL_noNL : ∀ (l : Chars), (∀ c ∈ l, c ≠ '\n') → splitNL l = [l] := by
  intro l
  induction l with
  | nil => intro _; rfl
  | cons c rest ih =>
    intro h
    simp only [splitNL]
    rw [if_neg (h c (by simp)), ih (fun x hx => h x (by simp [hx]))]

theorem noNL_jsonBody {d : Chars} (h : plainDeltaB d = true) :
    ∀ c ∈ jsonBody d, c ≠ '\n' := by
  intro c hc hceq
  subst hceq
  simp only [jsonBody, List.mem_append, List.mem_cons] at hc
  simp [show ('\n' : Char) ≠ lbraceChar from by decide,
    show ('\n' : Char) ≠ dquoteChar from by decide,
    show ('\n' : Char) ≠ rbraceChar from by decide] at hc
  exact (plainDeltaB_spec h '\n' hc).2.2 rfl

theorem noNL_deltaFrameBody {d : Chars} (h : plainDeltaB d = true) :
    ∀ c ∈ deltaFrameBody d, c ≠ '\n' := by
  intro c hc hceq
  subst hceq
  rcases List.mem_append.mp hc with hc2 | hc2
  · simp [show ('\n' : Char) ∉ ("data: ".data : Chars) from by decide] at hc2
  · exact noNL_jsonBody h '\n' hc2 rfl

theorem splitNN_pre_sep : ∀ (pre : Chars), (∀ c ∈ pre, c ≠ '\n') → ∀ (z : Chars),
    splitNN (pre ++ '\n' :: '\n' :: z) = pre :: splitNN z
  | [] => by
    intro _ z
    simp [splitNN]
  | [c] => by
    intro h z
    have hc := h c (by simp)
    simp [splitNN, hc]
  | c :: e :: pre'' => by
    intro h z
    have hc := h c (by simp)
    have hrec := splitNN_pre_sep (e :: pre'') (fun x hx => h x (by simp at hx ⊢; tauto)) z
    simp only [List.cons_append] at hrec ⊢
    simp [splitNN, hc, hrec]

theorem splitNN_encode : ∀ (ds : List Chars), (∀ d ∈ ds, plainDeltaB d = true) →
    splitNN ((ds.map deltaFrame).flatten) = ds.map deltaFrameBody ++ [[]] := by
  intro ds
  induction ds with
  | nil =>
    intro _
    simp [splitNN]
  | cons d rest ih =>
    intro h
    have hplain := h d (by simp)
    have hshape : ((d :: rest).map deltaFrame).flatten
        = deltaFrameBody d ++ '\n' :: '\n' :: (rest.map deltaFrame).flatten := by
      simp [deltaFrame, List.append_assoc]
    rw [hshape, splitNN_pre_sep (deltaFrameBody d) (noNL_deltaFrameBody hplain) _,
      ih (fun x hx => h x (by simp [hx]))]
    simp

theorem parseFrame_jsonBody (d : Chars) (h : plainDeltaB d = true) :
    parseFrame (jsonBody d) = some ⟨none, some d⟩ := by
  have hkey : readStringLit ("text".data
      ++ dquoteChar :: (':' :: dquoteChar :: (d ++ [dquoteChar, rbraceChar])))
      = some ("text".data, ':' :: dquoteChar :: (d ++ [dquoteChar, rbraceChar])) :=
    readStringLit_plain "text".data (by decide) _
  have hval : readStringLit (d ++ dquoteChar :: [rbraceChar]) = some (d, [rbraceChar]) :=
    readStringLit_plain d (fun c hc => ⟨(plainDeltaB_spec h c hc).1, (plainDeltaB_spec h c hc).2.1⟩) _
  have hdw : (dquoteChar :: (d ++ [dquoteChar, rbraceChar])).dropWhile (fun c => c = ' ')
      = dquoteChar :: (d ++ [dquoteChar, rbraceChar]) :=
    List.dropWhile_cons_of_neg (by decide)
  show parseFrame (lbraceChar :: dquoteChar :: ("text".data
      ++ (dquoteChar :: ':' :: dquoteChar :: (d ++ [dquoteChar, rbraceChar])))) = _
  simp only [show ("text".data : Chars) = ['t', 'e', 'x', 't'] from rfl,
    List.cons_append, List.nil_append] at hkey
  simp [parseFrame, hkey, hdw, hval]

theorem getLast?_cons_of_ne_nil (a : α) {l : List α} (h : l ≠ []) :
    (a :: l).getLast? = l.getLast? := by
  rw [show a :: l = [a] ++ l from rfl, List.getLast?_append_of_ne_nil [a] h]

theorem getLast?_jsonBody (d : Chars) : (jsonBody d).getLast? = some rbraceChar := by
  show ((([lbraceChar, dquoteChar] : Chars) ++ ("text".data
    ++ (dquoteChar :: ':' :: dquoteChar :: (d ++ [dquoteChar, rbraceChar]))))).getLast? = _
  rw [List.getLast?_append_of_ne_nil _ (by simp),
    List.getLast?_append_of_ne_nil _ (by simp),
    getLast?_cons_of_ne_nil _ (by simp), getLast?_cons_of_ne_nil _ (by simp),
    getLast?_cons_of_ne_nil _ (by simp),
    List.getLast?_append_of_ne_nil _ (by simp)]
  rfl

theorem trimChars_jsonBody (d : Chars) : trimChars (jsonBody d) = jsonBody d :=
  trimChars_eq_self (show (jsonBody d).head? = some lbraceChar from rfl) (by decide)
    (getLast?_jsonBody d) (by decide)

theorem getLast?_deltaFrameBody (d : Chars) :
    (deltaFrameBody d).getLast? = some rbraceChar := by
  unfold deltaFrameBody
  rw [List.getLast?_append_of_ne_nil _ (by simp [jsonBody])]
  exact getLast?_jsonBody d

theorem trimChars_deltaFrameBody (d : Chars) :
    trimChars (deltaFrameBody d) = deltaFrameBody d :=
  trimChars_eq_self (show (deltaFrameBody d).head? = some 'd' from rfl) (by decide)
    (getLast?_deltaFrameBody d) (by decide)

theorem procLines_frameBody (d : Chars) (h : plainDeltaB d = true) (hne : d ≠ []) (s : SM) :
    procLines s [deltaFrameBody d] = appendChunk d s := by
  have hpre : (("data: ".data).isPrefixOf (deltaFrameBody d)) = true :=
    List.isPrefixOf_iff_prefix.mpr ⟨jsonBody d, rfl⟩
  have hdrop : (deltaFrameBody d).drop 6 = jsonBody d := by
    show (("data: ".data ++ jsonBody d)).drop 6 = jsonBody d
    rw [show (6 : Nat) = ("data: ".data).length from rfl, List.drop_left]
  have hdone : jsonBody d ≠ "[DONE]".data := by
    intro heq
    have h0 : (jsonBody d).head? = some lbraceChar := rfl
    rw [heq] at h0
    have h1 : some '[' = some lbraceChar := h0
    have h2 : '[' = lbraceChar := by injection h1
    exact absurd h2 (by decide)
  have htx : truthyOpt (some d) = true := by
    simp only [truthyOpt, Bool.not_eq_true', List.isEmpty_eq_false]
    exact hne
  simp only [procLines]
  rw [if_pos hpre, hdrop, trimChars_jsonBody, if_neg hdone, parseFrame_jsonBody d h]
  simp [truthyOpt, htx, procLines, hne]

theorem processSSELines_frameBody (d : Chars) (h : plainDeltaB d = true) (hne : d ≠ [])
    {s : SM} {m : Msg} (hm : s.msg = some m) (hf : m.finalized = false) :
    processSSELines (deltaFrameBody d) s = appendChunk d s := by
  have heq : processSSELines (deltaFrameBody d) s = procLines s (splitNL (deltaFrameBody d)) := by
    simp [processSSELines, hm, hf]
  rw [heq, splitNL_noNL _ (noNL_deltaFrameBody h), procLines_frameBody d h hne]

theorem procEvents_frames : ∀ (ds : List Chars) (s : SM) (m : Msg),
    s.msg = some m → m.finalized = false →
    (∀ d ∈ ds, plainDeltaB d = true ∧ d ≠ []) →
    procEvents s (ds.map deltaFrameBody)
      = { s with msg := some { m with content := m.content ++ ds.flatten,
                                      streamBuffer := m.streamBuffer ++ ds.flatten,
                                      chunkCount := m.chunkCount + ds.length },
                 events := s.events ++ (prefixAccum m.content ds).map Ev.chunk } := by
  intro ds
  induction ds with
  | nil =>
    intro s m hm hf _
    show s = _
    have hred : ({ s with msg := some { m with content := m.content ++ ([] : List Chars).flatten,
                                               streamBuffer := m.streamBuffer ++ ([] : List Chars).flatten,
                                               chunkCount := m.chunkCount + ([] : List Chars).length },
                          events := s.events ++ (prefixAccum m.content []).map Ev.chunk } : SM)
        = { s with msg := some m, events := s.events } := by
      simp [prefixAccum]
    rw [hred, ← hm]
  | cons d rest ih =>
    intro s m hm hf hall
    obtain ⟨hpl, hne⟩ := hall d (by simp)
    have hrest : ∀ x ∈ rest, plainDeltaB x = true ∧ x ≠ [] :=
      fun x hx => hall x (by simp [hx])
    have hblk : (!(trimChars (deltaFrameBody d)).isEmpty) = true := by
      rw [trimChars_deltaFrameBody]
      simp [deltaFrameBody]
    simp only [List.map_cons, procEvents]
    rw [if_pos hblk, processSSELines_frameBody d hpl hne hm hf]
    have happ : appendChunk d s
        = { s with msg := some { m with streamBuffer := m.streamBuffer ++ d,
                                        content := m.content ++ d,
                                        chunkCount := m.chunkCount + 1 },
                   events := s.events ++ [Ev.chunk (m.content ++ d)] } := by
      simp [appendChunk, hm, hf]
    have hIH := ih { s with msg := some { m with streamBuffer := m.streamBuffer ++ d,
                                                 content := m.content ++ d,
                                                 chunkCount := m.chunkCount + 1 },
                            events := s.events ++ [Ev.chunk (m.content ++ d)] }
        { m with streamBuffer := m.streamBuffer ++ d, content := m.content ++ d,
                 chunkCount := m.chunkCount + 1 } rfl hf hrest
    rw [happ, hIH]
    simp [prefixAccum, List.append_assoc]
    omega

theorem chunkContents_map_chunk : ∀ L : List Chars, chunkContents (L.map Ev.chunk) = L := by
  intro L
  induction L with
  | nil => rfl
  | cons c rest ih => simp [chunkContents] at ih ⊢; exact ih

/-- Running a turn whose single read carries the deltas `ds`: the
message accumulates their concatenation, and the chunk callbacks see
exactly the prefix sums, in order. -/
theorem run_deltas (ds : List Chars) (h : ∀ d ∈ ds, plainDeltaB d = true ∧ d ≠ []) :
    run [EnvEv.fetchOk, EnvEv.readChunk ((ds.map deltaFrame).flatten)]
      = { st := SState.streaming,
          msg := some { role := "ai".data, content := ds.flatten, isStreaming := true,
                        streamBuffer := ds.flatten, finalized := false, error := false,
                        chunkCount := ds.length },
          contCount := 0, sseBuf := [],
          events := (prefixAccum [] ds).map Ev.chunk } := by
  have hsplit := splitNN_encode ds (fun d hd => (h d hd).1)
  have hframes := procEvents_frames ds ⟨SState.streaming, some freshMsg, 0, [], []⟩ freshMsg rfl rfl h
  show readChunkStep ((ds.map deltaFrame).flatten) ⟨SState.streaming, some freshMsg, 0, [], []⟩ = _
  simp only [readChunkStep]
  rw [show (⟨SState.streaming, some freshMsg, 0, [], []⟩ : SM).sseBuf
      ++ (ds.map deltaFrame).flatten = (ds.map deltaFrame).flatten from by simp]
  rw [hsplit, List.dropLast_append_of_ne_nil _ (by simp),
    getLastD_append_of_ne_nil (ds.map deltaFrameBody) (by simp) []]
  rw [show (([[]] : List Chars).dropLast : List Chars) = [] from rfl,
    show ([[]] : List Chars).getLastD [] = [] from rfl, List.append_nil]
  rw [hframes]
  simp [freshMsg]

/-- C3: frames are split only on blank-line boundaries with the
incomplete trailing frame retained across reads — one read of
`r1 ++ r2` equals two reads of `r1` then `r2`, so any partition of the
wire stream is equivalent to feeding it whole; delta texts are appended
in received order, never reordered or deduplicated (the chunk callbacks
see exactly the prefix sums of the deltas); and the `"Hel"`,
`"lo wor"`, `"ld."`, `[DONE]` stream yields content `"Hello world."`,
exactly 3 chunk callbacks and one terminal callback with
`wasError = false`. -/
theorem sse_stream_parsing :
    (∀ (r1 r2 : Chars) (s : SM), readChunkStep r2 (readChunkStep r1 s) = readChunkStep (r1 ++ r2) s)
    ∧ (∀ (reads : List Chars), reads ≠ [] → ∀ s : SM,
        reads.foldl (fun st r => readChunkStep r st) s = readChunkStep reads.flatten s)
    ∧ (∀ ds : List Chars, (∀ d ∈ ds, plainDeltaB d = true ∧ d ≠ []) →
        chunkContents (run [EnvEv.fetchOk, EnvEv.readChunk ((ds.map deltaFrame).flatten)]).events
          = prefixAccum [] ds
        ∧ (run [EnvEv.fetchOk, EnvEv.readChunk ((ds.map deltaFrame).flatten)]).contentOf
          = ds.flatten)
    ∧ (run helloWorldTrace).events
        = [Ev.chunk "Hel".data, Ev.chunk "Hello wor".data, Ev.chunk "Hello world.".data,
           Ev.fin "Hello world.".data false] := by
  refine ⟨readChunkStep_comp, readChunk_partition, ?_, by decide⟩
  intro ds h
  rw [run_deltas ds h]
  exact ⟨chunkContents_map_chunk _, rfl⟩

/-- Witness for C3 at concrete inputs: a two-read partition equals the
single read, and a one-delta stream produces that delta in order. -/
theorem sse_stream_parsing_witness :
    ((["ab".data, "cd".data] : List Chars) ≠ []
      ∧ (["ab".data, "cd".data] : List Chars).foldl (fun st r => readChunkStep r st) initSM
          = readChunkStep "abcd".data initSM)
    ∧ ((∀ d ∈ (["Hi".data] : List Chars), plainDeltaB d = true ∧ d ≠ [])
      ∧ chunkContents (run [EnvEv.fetchOk,
          EnvEv.readChunk (((["Hi".data] : List Chars).map deltaFrame).flatten)]).events
          = prefixAccum [] ["Hi".data]) := by
  refine ⟨⟨by decide, ?_⟩, ⟨by decide, ?_⟩⟩
  · exact sse_stream_parsing.2.1 ["ab".data, "cd".data] (by decide) initSM
  · exact (sse_stream_parsing.2.2.1 ["Hi".data] (by decide)).1

/-! ### Claim theorems: stream manager -/

/-- C1 counterexample: chunk contents are NOT always strictly
prefix-increasing across an automatic continuation.  The first chunk
delivers content ending in a space; finalization trims it before the
continuation, so the next chunk callback's content does not extend the
previous one (`...we ` vs `...wego`).  `chunkScanAll` checks the
claim's property over the full callback sequence of the turn. -/
theorem chunk_prefix_claim_cex :
    (chunkScanAll (run continuationWhitespaceTrace).events).2 = false
    ∧ (run continuationWhitespaceTrace).events
        = [Ev.chunk "aaaaaaaaaaaaaaaaaaaa and then we ".data,
           Ev.cont,
           Ev.chunk "aaaaaaaaaaaaaaaaaaaa and then wego".data,
           Ev.fin "aaaaaaaaaaaaaaaaaaaa and then wego".data false] := by
  exact ⟨by decide, by decide⟩

/-- C1 as amended: within every continuation segment of a turn (between
automatic continuations) the content passed to the chunk callback at
step `i` is a strict prefix of the content at step `i+1`; at a
continuation boundary the comparison re-bases on the trimmed
accumulated content. -/
theorem chunk_prefix_within_segments (evs : List EnvEv) :
    (chunkScanSeg (run evs).events).2 = true :=
  (Inv_run evs).2.2.2.2.2.1

/-- C2: for every event schedule of a turn, the terminal callback has
fired exactly once when the message is finalized and never before —
so each externally visible turn gets exactly one terminal callback; in
particular a zero-chunk immediate error fires it once, and a turn whose
continuation request fails still fires it exactly once. -/
theorem terminal_callback_exactly_once :
    (∀ evs : List EnvEv,
        finEvCount (run evs).events = (if (run evs).finalizedB then 1 else 0))
    ∧ (finEvCount (run zeroChunkErrorTrace).events = 1
        ∧ chunkContents (run zeroChunkErrorTrace).events = []
        ∧ (run zeroChunkErrorTrace).finalizedB = true)
    ∧ (contEvCount (run continuationFailureTrace).events = 1
        ∧ finEvCount (run continuationFailureTrace).events = 1) := by
  refine ⟨fun evs => (Inv_run evs).2.2.1, ⟨by decide, by decide, by decide⟩,
    ⟨by decide, by decide⟩⟩

/-- C5: for every event schedule of a turn at most one continuation
request is issued (the counter is capped at
`MAX_CONTINUATION_RETRIES = 1`); concretely, with two consecutive
truncation detections the first withholds the terminal callback and
issues the continuation, the second finalizes the turn with the partial
accumulated content. -/
theorem single_continuation_attempt :
    (∀ evs : List EnvEv,
        contEvCount (run evs).events ≤ 1 ∧ (run evs).contCount ≤ 1)
    ∧ (run doubleTruncationTrace).events
        = [Ev.chunk "bbbbbbbbbbbbbbbbbbbb and then we".data,
           Ev.cont,
           Ev.chunk "bbbbbbbbbbbbbbbbbbbb and then we went to".data,
           Ev.fin "bbbbbbbbbbbbbbbbbbbb and then we went to".data false] := by
  refine ⟨fun evs => ?_, by decide⟩
  have h4 := (Inv_run evs).2.2.2.1
  have h5 := (Inv_run evs).2.2.2.2.1
  exact ⟨by rw [h5]; exact h4, h4⟩

/-- C6: whenever the session is not `IDLE` (by the state invariant it is
then `CONNECTING` or `STREAMING`), `startStream` returns `null` (the
`Busy` outcome) synchronously and the entire session state — including
the in-flight message's content, chunk count and the callback log — is
unchanged. -/
theorem busy_rejection (evs : List EnvEv) (h : (run evs).st ≠ SState.idle) :
    startStreamCall (run evs) = ((run evs), none) := by
  rcases (Inv_run evs).2.1 with h2 | h2 | h2
  · exact absurd h2 h
  · simp [startStreamCall, h2]
  · simp [startStreamCall, h2]

/-- Witness for C6: immediately after `startStream` the session is
`CONNECTING`, and a second call is rejected without touching state. -/
theorem busy_rejection_witness :
    (run []).st ≠ SState.idle ∧ startStreamCall (run []) = ((run []), none) :=
  ⟨by decide, busy_rejection [] (by decide)⟩

end Meow
